import Mathlib

/-!
Verification of the code-assembly engine of this repository.

The development shallowly embeds the Python modules `codex/dag.py`,
`codex/chains/gen_branching_graph.py` and `codex/develop/agent.py`:
pure functions become Lean functions, the in-place mutation of the
dependency graph becomes explicit state passing, and raised exceptions
become explicit error results that carry the state at the raise point.
External collaborators (the `isort`/`black` formatters and the
generation oracle) are passed in as function parameters.
-/

namespace Codex

/-- Modelled from the spec: the `Param` model of `codex/model.py` is not under
src/ (only `gen_branching_graph.py` has a variant); per section 3 a parameter is
a named, typed value with a description. -/
structure Param where
  name : String
  param_type : String
  description : String
deriving DecidableEq

/-- Modelled from the spec: the `RequiredPackage` model of `codex/model.py` is
not under src/; per section 3 a `PackageRef` is a package name with an optional
version and an optional specifier. -/
structure RequiredPackage where
  package_name : String
  version : Option String
  specifier : Option String
deriving DecidableEq

/-- Modelled from the spec: the `Node` model of `codex/model.py` is not under
src/; per section 3 a node descriptor has a name, declared input and output
parameters, a code fragment and required packages.  A missing (`None`)
parameter list is represented by the empty list, which has the same falsy
behaviour in every use site of `dag.py`. -/
structure Node where
  name : String
  input_params : List Param
  output_params : List Param
  code : String
  required_packages : List RequiredPackage
deriving DecidableEq

instance : Inhabited Node := ⟨⟨"", [], [], "", []⟩⟩

/-- Modelled from the spec: `ExecutionPath` of `codex/chains` is not under
src/; `compile_graph` only reads its `name` and `endpoint_name`. -/
structure ExecutionPath where
  name : String
  endpoint_name : String
deriving DecidableEq

/-- The compiled artifact returned by `compile_graph` (`FunctionData` of
`codex/model.py`, fields as read off the construction site in `dag.py`). -/
structure FunctionData where
  function_name : String
  code : String
  requirements_txt : String
  endpoint_name : String
deriving DecidableEq

deriving instance DecidableEq for Except

/-- An edge of the dependency graph: provider name, consumer name, and the
`connection_type` attribute (`param_key[0]`, i.e. the first character of the
parameter key, as in `dag.py` line 53). -/
abbrev Edge := String × String × Char

/-- The `networkx.DiGraph` used by `dag.py`, restricted to the operations the
source performs: an insertion-ordered vertex list (each vertex carrying its
`node` attribute) and an edge list. -/
structure DiGraph where
  vertices : List (String × Node)
  edges : List Edge
deriving DecidableEq

def DiGraph.names (g : DiGraph) : List String := g.vertices.map Prod.fst

/-- `graph.add_node(name, node=node)`: networkx keeps a single vertex per
name, overwriting the attribute if the name is already present. -/
def DiGraph.addVertex (g : DiGraph) (name : String) (node : Node) : DiGraph :=
  if g.vertices.any (fun pr => pr.1 == name) then
    { g with vertices := g.vertices.map (fun pr => if pr.1 == name then (name, node) else pr) }
  else
    { g with vertices := g.vertices ++ [(name, node)] }

/-- The parameter key `f"{p.name}: {p.param_type}"` of `dag.py` lines 22/38. -/
def paramKey (p : Param) : String := p.name ++ ": " ++ p.param_type

/-- First character of a string (`param_key[0]`); parameter keys always
contain the text ": " so they are never empty. -/
def headChar (s : String) : Char := s.data.headD ' '

/-- Insertion into the `providers` dict of `add_node`: Python dict assignment
keeps the position of an existing key and appends a new key at the end. -/
def updateAssoc (provs : List (String × String)) (k v : String) :
    List (String × String) :=
  if provs.any (fun pr => pr.1 == k) then
    provs.map (fun pr => if pr.1 == k then (pr.1, v) else pr)
  else provs ++ [(k, v)]

/-- The inner loop of `add_node` (lines 37-40): scan one existing vertex's
output parameters and record it as provider of every needed key it matches. -/
def scanOutputs (needed : List String) (vname : String) :
    List Param → List (String × String) → List (String × String)
  | [], provs => provs
  | op :: rest, provs =>
    scanOutputs needed vname rest
      (if needed.contains (paramKey op) then updateAssoc provs (paramKey op) vname
       else provs)

/-- The outer loop of `add_node` (lines 29-40): scan every existing vertex. -/
def scanVertices (needed : List String) :
    List (String × Node) → List (String × String) → List (String × String)
  | [], provs => provs
  | (n, en) :: rest, provs =>
    scanVertices needed rest (scanOutputs needed n en.output_params provs)

/-- `add_node` of `dag.py` (lines 15-55).  The graph is threaded explicitly;
the second component of the result is the state of the graph after the call
(on the `ValueError` raise the graph is exactly the state at the raise
point, i.e. untouched, since both mutations happen after the check). -/
def add_node (g : DiGraph) (node_name : String) (node : Node) :
    Except String Bool × DiGraph :=
  if g.vertices.length == 0 then
    (Except.ok true, g.addVertex node_name node)
  else
    let input_params_needed := node.input_params.map paramKey
    let providers := scanVertices input_params_needed g.vertices []
    if input_params_needed.length != providers.length then
      (Except.error ("Node " ++ node_name ++ " is missing input parameters"), g)
    else
      let g' := g.addVertex node_name node
      (Except.ok true,
       { g' with
         edges := g'.edges ++ providers.map (fun pr => (pr.2, node_name, headChar pr.1)) })

/-! ### Lemmas about the provider scan of `add_node` -/

def keysOf (provs : List (String × String)) : List String := provs.map Prod.fst

theorem keysOf_updateAssoc (provs : List (String × String)) (k v : String) :
    keysOf (updateAssoc provs k v) =
      if k ∈ keysOf provs then keysOf provs else keysOf provs ++ [k] := by
  unfold updateAssoc
  by_cases h : k ∈ keysOf provs
  · have hany : provs.any (fun pr => pr.1 == k) = true := by
      rcases List.mem_map.1 h with ⟨pr, hpr, hk⟩
      exact List.any_eq_true.2 ⟨pr, hpr, by simp [hk]⟩
    simp only [hany, if_pos h, if_true]
    unfold keysOf
    rw [List.map_map]
    refine List.map_congr_left ?_
    intro pr _
    dsimp only [Function.comp]
    split <;> rfl
  · have hany : provs.any (fun pr => pr.1 == k) = false := by
      by_contra hc
      have := List.any_eq_true.1 (Bool.of_not_eq_false hc)
      rcases this with ⟨pr, hpr, hk⟩
      exact h (List.mem_map.2 ⟨pr, hpr, by simpa using hk⟩)
    simp only [hany, if_neg h, Bool.false_eq_true, if_false]
    unfold keysOf
    simp

/-- The invariant maintained by the provider scan, relative to the needed keys
and a distinguished key `K` that no scanned output produces. -/
def GoodProvs (needed : List String) (K : String) (provs : List (String × String)) : Prop :=
  (keysOf provs).Nodup ∧ (∀ x ∈ keysOf provs, x ∈ needed) ∧ K ∉ keysOf provs

theorem goodProvs_updateAssoc {needed : List String} {K : String}
    {provs : List (String × String)} (h : GoodProvs needed K provs)
    {k : String} (hk : k ∈ needed) (hkK : k ≠ K) (v : String) :
    GoodProvs needed K (updateAssoc provs k v) := by
  obtain ⟨hnd, hsub, hK⟩ := h
  rw [GoodProvs, keysOf_updateAssoc]
  by_cases hmem : k ∈ keysOf provs
  · simp only [if_pos hmem]
    exact ⟨hnd, hsub, hK⟩
  · simp only [if_neg hmem]
    refine ⟨?_, ?_, ?_⟩
    · simpa [List.nodup_append] using ⟨hnd, hmem⟩
    · intro x hx
      rcases List.mem_append.1 hx with hx | hx
      · exact hsub x hx
      · simpa using (by simpa using hx : x = k) ▸ hk
    · intro hc
      rcases List.mem_append.1 hc with hc | hc
      · exact hK hc
      · exact hkK ((by simpa using hc : K = k)).symm

theorem scanOutputs_inv {needed : List String} {K : String} (vname : String)
    (ops : List Param) (provs : List (String × String))
    (hops : ∀ op ∈ ops, paramKey op ≠ K)
    (h : GoodProvs needed K provs) :
    GoodProvs needed K (scanOutputs needed vname ops provs) := by
  induction ops generalizing provs with
  | nil => exact h
  | cons op rest ih =>
    rw [scanOutputs]
    refine ih _ (fun o ho => hops o (List.mem_cons_of_mem _ ho)) ?_
    by_cases hc : needed.contains (paramKey op) = true
    · rw [if_pos hc]
      exact goodProvs_updateAssoc h (by simpa using hc)
        (hops op (List.mem_cons_self _ _)) vname
    · rw [if_neg hc]
      exact h

theorem scanVertices_inv {needed : List String} {K : String}
    (vs : List (String × Node)) (provs : List (String × String))
    (hvs : ∀ pr ∈ vs, ∀ op ∈ pr.2.output_params, paramKey op ≠ K)
    (h : GoodProvs needed K provs) :
    GoodProvs needed K (scanVertices needed vs provs) := by
  induction vs generalizing provs with
  | nil => exact h
  | cons pr rest ih =>
    rw [scanVertices]
    exact ih _ (fun q hq => hvs q (List.mem_cons_of_mem _ hq))
      (scanOutputs_inv pr.1 pr.2.output_params provs
        (hvs pr (List.mem_cons_self _ _)) h)

theorem goodProvs_length_lt {needed : List String} {K : String}
    {provs : List (String × String)} (h : GoodProvs needed K provs)
    (hK : K ∈ needed) : provs.length < needed.length := by
  obtain ⟨hnd, hsub, hKn⟩ := h
  have h1 : provs.length = (keysOf provs).length := by
    simp [keysOf]
  have h2 : (keysOf provs).length = (keysOf provs).toFinset.card :=
    (List.toFinset_card_of_nodup hnd).symm
  have hss : (keysOf provs).toFinset ⊂ needed.toFinset := by
    refine (Finset.ssubset_iff_of_subset ?_).2 ⟨K, ?_, ?_⟩
    · intro x hx
      exact List.mem_toFinset.2 (hsub x (List.mem_toFinset.1 hx))
    · exact List.mem_toFinset.2 hK
    · intro hc
      exact hKn (List.mem_toFinset.1 hc)
  calc provs.length = (keysOf provs).toFinset.card := h1.trans h2
    _ < needed.toFinset.card := Finset.card_lt_card hss
    _ ≤ needed.length := List.toFinset_card_le _

theorem scanOutputs_nil_needed (vname : String) (ops : List Param)
    (provs : List (String × String)) :
    scanOutputs [] vname ops provs = provs := by
  induction ops with
  | nil => rfl
  | cons op rest ih => rw [scanOutputs]; simpa using ih

theorem scanVertices_nil_needed (vs : List (String × Node))
    (provs : List (String × String)) :
    scanVertices [] vs provs = provs := by
  induction vs generalizing provs with
  | nil => rfl
  | cons pr rest ih => rw [scanVertices, scanOutputs_nil_needed]; exact ih provs

theorem addVertex_edges (g : DiGraph) (name : String) (node : Node) :
    (g.addVertex name node).edges = g.edges := by
  unfold DiGraph.addVertex
  by_cases h : g.vertices.any (fun pr => pr.1 == name) <;> simp [h]

theorem addVertex_mem_names (g : DiGraph) (name : String) (node : Node) :
    name ∈ (g.addVertex name node).names := by
  unfold DiGraph.addVertex DiGraph.names
  by_cases h : g.vertices.any (fun pr => pr.1 == name)
  · simp only [h, if_true]
    rcases List.any_eq_true.1 h with ⟨pr, hpr, hk⟩
    refine List.mem_map.2 ⟨(name, node), ?_, rfl⟩
    refine List.mem_map.2 ⟨pr, hpr, ?_⟩
    simp [hk]
  · simp [h]

/-! ### Claims about the graph builder -/

/-- Claim C2: inserting a node into a non-empty graph fails with the
missing-dependency `ValueError` whenever some required `(name, type)` input
key has no existing vertex producing a matching output, and on such a failure
the returned graph state is exactly the input graph: no vertex and no edge
has been added. -/
theorem add_node_missing_dependency (g : DiGraph) (node_name : String)
    (node : Node) (p : Param)
    (hne : g.vertices ≠ [])
    (hp : p ∈ node.input_params)
    (hmiss : ∀ pr ∈ g.vertices, ∀ op ∈ pr.2.output_params, paramKey op ≠ paramKey p) :
    add_node g node_name node =
      (Except.error ("Node " ++ node_name ++ " is missing input parameters"), g) := by
  unfold add_node
  have hlen : (g.vertices.length == 0) = false := by
    simp [List.length_eq_zero]
    exact hne
  have hgood : GoodProvs (node.input_params.map paramKey) (paramKey p)
      (scanVertices (node.input_params.map paramKey) g.vertices []) := by
    refine scanVertices_inv g.vertices [] hmiss ?_
    exact ⟨List.nodup_nil, by simp [keysOf], by simp [keysOf]⟩
  have hKmem : paramKey p ∈ node.input_params.map paramKey :=
    List.mem_map.2 ⟨p, hp, rfl⟩
  have hlt := goodProvs_length_lt hgood hKmem
  have hne2 : ((node.input_params.map paramKey).length !=
      (scanVertices (node.input_params.map paramKey) g.vertices []).length) = true := by
    simp only [bne_iff_ne, ne_eq]
    omega
  simp only [hlen, Bool.false_eq_true, if_false, hne2, if_true]

/-- Claim C2 witness: a concrete one-vertex graph producing `x: int` and a
node requiring `y: int`; insertion fails and the graph is unchanged. -/
theorem add_node_missing_dependency_witness :
    add_node
      ⟨[("a", ⟨"a", [], [⟨"x", "int", ""⟩], "pass", []⟩)], []⟩
      "b" ⟨"b", [⟨"y", "int", ""⟩], [], "pass", []⟩ =
      (Except.error "Node b is missing input parameters",
       ⟨[("a", ⟨"a", [], [⟨"x", "int", ""⟩], "pass", []⟩)], []⟩) :=
  add_node_missing_dependency _ "b" _ ⟨"y", "int", ""⟩
    (by decide) (by decide) (by decide)

/-- Claim C10: for every graph (empty or not) and every node whose
`input_params` list is empty (covering Python `None` as well, which is
equally falsy), `add_node` succeeds, the node is added as a vertex, and the
edge set is unchanged — in particular the new node has no incoming edges and
no role check is performed, so any number of input-less nodes are accepted. -/
theorem add_node_no_inputs (g : DiGraph) (node_name : String) (node : Node)
    (h : node.input_params = []) :
    (add_node g node_name node).1 = Except.ok true ∧
    (add_node g node_name node).2.vertices = (g.addVertex node_name node).vertices ∧
    (add_node g node_name node).2.edges = g.edges ∧
    node_name ∈ (add_node g node_name node).2.names := by
  have hmem := addVertex_mem_names g node_name node
  have hedges := addVertex_edges g node_name node
  have hres : add_node g node_name node =
      (Except.ok true,
       { g.addVertex node_name node with edges := (g.addVertex node_name node).edges }) := by
    unfold add_node
    by_cases hg : (g.vertices.length == 0) = true
    · rw [if_pos hg]
    · rw [if_neg hg]
      simp only [h, List.map_nil, scanVertices_nil_needed, List.length_nil,
        bne_self_eq_false, Bool.false_eq_true, if_false, List.append_nil]
  rw [hres]
  refine ⟨rfl, rfl, ?_, ?_⟩
  · simpa using hedges
  · simpa [DiGraph.names] using hmem

/-- Claim C10 witness: an input-less node is accepted into a concrete
non-empty graph without creating any edge. -/
theorem add_node_no_inputs_witness :
    (add_node ⟨[("a", ⟨"a", [], [⟨"x", "int", ""⟩], "pass", []⟩)], []⟩
        "start_request" ⟨"start_request", [], [⟨"z", "int", ""⟩], "pass", []⟩).1 =
      Except.ok true ∧
    (add_node ⟨[("a", ⟨"a", [], [⟨"x", "int", ""⟩], "pass", []⟩)], []⟩
        "start_request" ⟨"start_request", [], [⟨"z", "int", ""⟩], "pass", []⟩).2.edges = [] :=
  ⟨(add_node_no_inputs _ "start_request" _ rfl).1,
   (add_node_no_inputs _ "start_request" _ rfl).2.2.1⟩

/-! ### Substring containment (Python's `in` on strings) -/

/-- `leadsWith p s` holds when the character list `s` starts with `p`. -/
def leadsWith : List Char → List Char → Bool
  | [], _ => true
  | _ :: _, [] => false
  | p :: ps, x :: xs => p == x && leadsWith ps xs

/-- `containsSeq pat s`: `pat` occurs contiguously inside `s`. -/
def containsSeq (pat : List Char) : List Char → Bool
  | [] => leadsWith pat []
  | x :: t => leadsWith pat (x :: t) || containsSeq pat t

/-- Python's substring test `needle in hay` as used by `compile_graph` on
node names. -/
def strContains (hay needle : String) : Bool := containsSeq needle.data hay.data

/-- Python `str.startswith`. -/
def pyStartsWith (s p : String) : Bool := leadsWith p.data s.data

/-- Fuel-based splitter on a non-empty separator sequence (the fuel is the
length of the scanned list, so the fuel case is never hit). -/
def splitOnAuxSeq (sep : List Char) : Nat → List Char → List (List Char)
  | _, [] => [[]]
  | 0, s => [s]
  | fuel + 1, x :: xs =>
    if leadsWith sep (x :: xs) then
      [] :: splitOnAuxSeq sep fuel (List.drop (sep.length - 1) xs)
    else
      match splitOnAuxSeq sep fuel xs with
      | [] => [[x]]
      | h :: t => (x :: h) :: t

/-- Python `str.split(sep)` with a non-empty separator: non-overlapping
occurrences, scanned left to right. -/
def pySplit (s sep : String) : List String :=
  (splitOnAuxSeq sep.data s.data.length s.data).map String.mk

/-- Python `sep.join(parts)`. -/
def joinWith (sep : String) : List String → String
  | [] => ""
  | [x] => x
  | x :: y :: rest => x ++ sep ++ joinWith sep (y :: rest)

/-! ### Acyclicity and topological order

Modelled from the spec: `nx.is_directed_acyclic_graph` and
`nx.topological_sort` come from the external networkx library, which is not
part of this repository.  Per section 4.2 the compiler performs an
acyclicity check and then visits the vertices in some valid topological
order ("any valid topological order is acceptable"); we model both with a
Kahn-style peeling that succeeds exactly on acyclic graphs. -/

def isBlockedBy (edges : List Edge) (remaining : List String) (v : String) : Bool :=
  edges.any (fun e => e.2.1 == v && remaining.contains e.1)

def findReady (edges : List Edge) (remaining : List String) : Option String :=
  remaining.find? (fun v => !(isBlockedBy edges remaining v))

def topoAux (edges : List Edge) : Nat → List String → Option (List String)
  | _, [] => some []
  | 0, _ :: _ => none
  | fuel + 1, v :: rest =>
    (findReady edges (v :: rest)).bind (fun w =>
      (topoAux edges fuel ((v :: rest).erase w)).map (fun ord => w :: ord))

def topoSort (g : DiGraph) : Option (List String) :=
  topoAux g.edges g.names.length g.names

def isDAG (g : DiGraph) : Bool := (topoSort g).isSome

theorem contains_iff_mem (l : List String) (a : String) :
    l.contains a = true ↔ a ∈ l := by
  simp [List.contains, List.elem_iff]

/-- A successful peel is a permutation of the remaining vertex list. -/
theorem topoAux_perm (edges : List Edge) :
    ∀ (fuel : Nat) (rem ord : List String),
      topoAux edges fuel rem = some ord → ord.Perm rem := by
  intro fuel
  induction fuel with
  | zero =>
    intro rem ord h
    cases rem with
    | nil => simp [topoAux] at h; simp [h]
    | cons a b => simp [topoAux] at h
  | succ fuel ih =>
    intro rem ord h
    cases rem with
    | nil => simp [topoAux] at h; simp [h]
    | cons a b =>
      rw [topoAux] at h
      cases hf : findReady edges (a :: b) with
      | none => rw [hf] at h; cases h
      | some w =>
        rw [hf, Option.some_bind] at h
        cases ht : topoAux edges fuel ((a :: b).erase w) with
        | none => rw [ht, Option.map_none'] at h; cases h
        | some ord' =>
          rw [ht, Option.map_some'] at h
          cases h
          have hw : w ∈ a :: b := List.mem_of_find?_eq_some hf
          exact ((ih _ _ ht).cons w).trans (List.perm_cons_erase hw).symm

/-- A successful peel lists every consumer after all of its providers. -/
theorem topoAux_respects (edges : List Edge) :
    ∀ (fuel : Nat) (rem ord : List String),
      topoAux edges fuel rem = some ord →
      ∀ u v t, (u, v, t) ∈ edges → u ∈ rem → v ∈ ord →
        ord.indexOf u < ord.indexOf v := by
  intro fuel
  induction fuel with
  | zero =>
    intro rem ord h u v t he hu hv
    cases rem with
    | nil => simp [topoAux] at h; subst h; simp at hv
    | cons a b => simp [topoAux] at h
  | succ fuel ih =>
    intro rem ord h u v t he hu hv
    cases rem with
    | nil => simp [topoAux] at h; subst h; simp at hv
    | cons a b =>
      rw [topoAux] at h
      cases hf : findReady edges (a :: b) with
      | none => rw [hf] at h; cases h
      | some w =>
        rw [hf, Option.some_bind] at h
        cases ht : topoAux edges fuel ((a :: b).erase w) with
        | none => rw [ht, Option.map_none'] at h; cases h
        | some ord' =>
          rw [ht, Option.map_some'] at h
          cases h
          have hready : isBlockedBy edges (a :: b) w = false := by
            have := List.find?_some hf
            simpa using this
          by_cases hvw : v = w
          · exfalso
            subst hvw
            have hblocked : isBlockedBy edges (a :: b) v = true := by
              unfold isBlockedBy
              refine List.any_eq_true.2 ⟨(u, v, t), he, ?_⟩
              simp [contains_iff_mem, hu]
            rw [hready] at hblocked
            cases hblocked
          · have hvord' : v ∈ ord' := by
              rcases List.mem_cons.1 hv with h1 | h2
              · exact absurd h1 hvw
              · exact h2
            by_cases huw : u = w
            · subst huw
              rw [List.indexOf_cons_self, List.indexOf_cons_ne _ (fun h => hvw h.symm)]
              exact Nat.succ_pos _
            · have hu' : u ∈ (a :: b).erase w := (List.mem_erase_of_ne huw).2 hu
              have hlt := ih _ _ ht u v t he hu' hvord'
              rw [List.indexOf_cons_ne _ (fun h => huw h.symm),
                  List.indexOf_cons_ne _ (fun h => hvw h.symm)]
              omega

theorem topoSort_perm {g : DiGraph} {ord : List String}
    (h : topoSort g = some ord) : ord.Perm g.names :=
  topoAux_perm g.edges _ _ _ h

theorem topoSort_respects {g : DiGraph} {ord : List String}
    (h : topoSort g = some ord) :
    ∀ u v t, (u, v, t) ∈ g.edges → u ∈ g.names → v ∈ g.names →
      ord.indexOf u < ord.indexOf v := by
  intro u v t he hu hv
  exact topoAux_respects g.edges _ _ _ h u v t he hu
    ((topoSort_perm h).mem_iff.2 hv)

/-! ### Cycles -/

/-- A directed path (of length at least one) through the graph; edge
endpoints of a networkx graph are always vertices, which the `step`
constructor records. -/
inductive HasPath (g : DiGraph) : String → String → Prop where
  | step : ∀ u v t, (u, v, t) ∈ g.edges → u ∈ g.names → v ∈ g.names → HasPath g u v
  | trans : ∀ u v w, HasPath g u v → HasPath g v w → HasPath g u w

/-- The graph contains a directed cycle. -/
def hasCycle (g : DiGraph) : Prop := ∃ v, HasPath g v v

theorem HasPath.indexOf_lt {g : DiGraph} {ord : List String}
    (hord : topoSort g = some ord) {u v : String} (h : HasPath g u v) :
    ord.indexOf u < ord.indexOf v := by
  induction h with
  | step u v t he hu hv => exact topoSort_respects hord u v t he hu hv
  | trans u v w _ _ ih1 ih2 => exact ih1.trans ih2

/-- A cyclic graph has no topological order: the Kahn peel fails. -/
theorem topoSort_eq_none_of_hasCycle {g : DiGraph} (h : hasCycle g) :
    topoSort g = none := by
  obtain ⟨v, hp⟩ := h
  cases hord : topoSort g with
  | none => rfl
  | some ord => exact absurd (hp.indexOf_lt hord) (lt_irrefl _)

/-! ### Function-name derivation (`compile_graph` lines 137-140) -/

/-- Python `str.replace` with a one-character pattern and replacement. -/
def pyReplaceChar (s : String) (a b : Char) : String :=
  String.mk (s.data.map (fun c => if c = a then b else c))

/-- Python `str.replace(pat, "")` with a one-character pattern. -/
def pyDeleteChar (s : String) (a : Char) : String :=
  String.mk (s.data.filter (fun c => !(c == a)))

def isPyWhitespace (c : Char) : Bool :=
  c == ' ' || c == '\t' || c == '\n' || c == '\r' || c == '\x0b' || c == '\x0c'

/-- Python `str.strip()` (the ASCII whitespace characters). -/
def pyStrip (s : String) : String :=
  String.mk (((s.data.dropWhile isPyWhitespace).reverse.dropWhile isPyWhitespace).reverse)

/-- Python `str.lower()` (character-wise). -/
def pyLower (s : String) : String := String.mk (s.data.map Char.toLower)

/-- The function-name computation of `compile_graph`:
`ep.name.replace(" ", "_").replace("-", "_").replace("/", "").strip().lower() + "_request"`. -/
def deriveFunctionName (route_name : String) : String :=
  pyLower (pyStrip (pyDeleteChar
    (pyReplaceChar (pyReplaceChar route_name ' ' '_') '-' '_') '/')) ++ "_request"

/-! ### Per-node emission -/

/-- Dict lookup into the accumulated output-name remap table, falling back to
the raw declared name. -/
def remapName (m : List (String × String)) (n : String) : String :=
  match m.find? (fun pr => pr.1 == n) with
  | some pr => pr.2
  | none => n

/-- Python `{**a, **b}` on insertion-ordered dicts. -/
def dictMerge (a b : List (String × String)) : List (String × String) :=
  b.foldl (fun acc pr => updateAssoc acc pr.1 pr.2) a

/-- Modelled from the spec: `Node.request_to_code` of `codex/model.py` is not
under src/; per section 4.2 step 4 the start node "emits the function
signature/header, using the derived function name and the node's declared
output parameters as the function's formal parameters". -/
def Node.request_to_code (n : Node) : String :=
  "def " ++ n.name ++ "(" ++
    joinWith ", " (n.output_params.map paramKey) ++ "):\n"

/-- Modelled from the spec: `Node.response_to_code` of `codex/model.py` is not
under src/; per section 4.2 step 4 the end node "emits a
return/response-construction statement that maps the node's declared input
parameters to previously emitted output variable names" through the remap
table. -/
def Node.response_to_code (n : Node) (m : List (String × String)) : String :=
  "    return " ++
    joinWith ", " (n.input_params.map (fun p => remapName m p.name)) ++ "\n"

/-- Modelled from the spec: `Node.to_code` of `codex/model.py` is not under
src/; per section 4.2 step 4 an interior node emits "a call-site that invokes
it with remapped input variable names, and registers its outputs' uniquified
variable names into the remap table" — outputs are uniquified by suffixing
the node name. -/
def Node.to_code (n : Node) (m : List (String × String)) :
    String × List (String × String) :=
  let outMap := n.output_params.map (fun p => (p.name, p.name ++ "_" ++ n.name))
  ("    " ++ joinWith ", " (outMap.map Prod.snd) ++ " = " ++ n.name ++
     "(" ++ joinWith ", " (n.input_params.map (fun p => remapName m p.name)) ++
     ")",
   outMap)

/-- The three emission classes of the compile loop: the start (`request`)
header, the end (`response`) return statement, and an interior call site. -/
inductive EmKind where
  | start
  | stop
  | call
deriving DecidableEq

/-- Which branch of the loop body a node name selects (`"request" in
node_name` is checked first, then `"response" in node_name`). -/
def kindOfName (node_name : String) : EmKind :=
  if strContains node_name "request" then EmKind.start
  else if strContains node_name "response" then EmKind.stop
  else EmKind.call

structure TraceEntry where
  node_name : String
  kind : EmKind
  emitted : String
deriving DecidableEq

/-- The mutable state of the `compile_graph` loop, plus the emission trace
(one entry appended per visited node). -/
structure CompileState where
  python_file : String
  graph_script : String
  requirements : List RequiredPackage
  output_name_map : List (String × String)
  trace : List TraceEntry
deriving DecidableEq

def initState : CompileState := ⟨"", "", [], [], []⟩

/-- One iteration of the `for node_name in nx.topological_sort(graph)` loop
of `compile_graph` (lines 141-156). -/
def processNode (function_name : String) (st : CompileState)
    (node_name : String) (node : Node) : CompileState :=
  let st := { st with requirements := st.requirements ++ node.required_packages }
  if strContains node_name "request" then
    let node' := { node with name := function_name }
    let em := node'.request_to_code
    { st with graph_script := st.graph_script ++ em,
              trace := st.trace ++ [⟨node_name, EmKind.start, em⟩] }
  else if strContains node_name "response" then
    let em := node.response_to_code st.output_name_map
    { st with graph_script := st.graph_script ++ em,
              trace := st.trace ++ [⟨node_name, EmKind.stop, em⟩] }
  else
    let pr := node.to_code st.output_name_map
    { st with python_file := st.python_file ++ "\n" ++ node.code ++ "\n",
              output_name_map := dictMerge st.output_name_map pr.2,
              graph_script := st.graph_script ++ pr.1 ++ "\n",
              trace := st.trace ++ [⟨node_name, EmKind.call, pr.1 ++ "\n"⟩] }

/-- `graph.nodes[node_name]["node"]` (total on the names the loop visits). -/
def DiGraph.getNode (g : DiGraph) (name : String) : Node :=
  match g.vertices.find? (fun pr => pr.1 == name) with
  | some pr => pr.2
  | none => default

def runLoop (g : DiGraph) (function_name : String) (order : List String) :
    CompileState :=
  order.foldl
    (fun st node_name => processNode function_name st node_name (g.getNode node_name))
    initState

/-! ### The code normalizer (`refactor_imports`, lines 58-90) -/

/-- The three accumulators of `refactor_imports`' classification loop.  The
Python sets become insertion-ordered duplicate-free lists (their iteration
order is irrelevant: every read goes through `sorted`). -/
structure RefactorState where
  from_imports : List (String × List String)
  import_lines : List String
  other_lines : List String

def insertNew (l : List String) (x : String) : List String :=
  if l.contains x then l else l ++ [x]

def addFromImport (fi : List (String × List String)) (module imported : String) :
    List (String × List String) :=
  if fi.any (fun pr => pr.1 == module) then
    fi.map (fun pr => if pr.1 == module then (pr.1, insertNew pr.2 imported) else pr)
  else fi ++ [(module, [imported])]

/-- Stable ascending insertion: an element is placed after every element it
is not strictly below, so repeated elements keep their relative order. -/
def insertSorted (x : String) : List String → List String
  | [] => [x]
  | y :: ys => if x < y then x :: y :: ys else y :: insertSorted x ys

/-- Python `sorted` on strings (stable, lexicographic by code point). -/
def sortStrings (l : List String) : List String :=
  l.foldl (fun acc x => insertSorted x acc) []

/-- One line of the classification loop (lines 63-74); the error models the
`ValueError` Python raises when a `from` line does not split into exactly two
pieces around " import ". -/
def classifyLine (st : RefactorState) (line : String) : Except String RefactorState :=
  if pyStartsWith line "from " then
    match pySplit line " import " with
    | [module, imported] =>
      Except.ok { st with from_imports := addFromImport st.from_imports module imported }
    | _ => Except.error "ValueError: unpacking line.split"
  else if pyStartsWith line "import " then
    Except.ok { st with import_lines := insertNew st.import_lines line }
  else
    Except.ok { st with other_lines := st.other_lines ++ [line] }

def refactor_imports (file_content : String) : Except String String := do
  let st ← (pySplit file_content "\n").foldlM classifyLine ⟨[], [], []⟩
  let consolidated := st.from_imports.map (fun pr =>
    pr.1 ++ " import " ++ joinWith ", " (sortStrings pr.2))
  let all_imports := sortStrings (st.import_lines ++ consolidated)
  Except.ok (joinWith "\n" all_imports ++ "\n\n" ++
    joinWith "\n" st.other_lines)

/-- `format_and_sort_code` (lines 93-100): the external `isort.code` and
`black.format_str` are not part of this repository and are passed in as
parameters; a parse failure of either propagates — the source catches
nothing here. -/
def format_and_sort_code (isortF blackF : String → Except String String)
    (file_content : String) : Except String String :=
  match isortF file_content with
  | Except.error e => Except.error e
  | Except.ok sorted_content => blackF sorted_content

/-! ### The requirements manifest (`generate_requirements_txt`, lines 103-126) -/

def getPair (p : RequiredPackage) : Option String × Option String :=
  (p.version, p.specifier)

/-- One iteration of the aggregation loop: `defaultdict(list)` keyed by
package name, Python dict insertion order. -/
def addPkg (acc : List (String × List (Option String × Option String)))
    (p : RequiredPackage) : List (String × List (Option String × Option String)) :=
  if acc.any (fun e => e.1 == p.package_name) then
    acc.map (fun e => if e.1 == p.package_name then (e.1, e.2 ++ [getPair p]) else e)
  else acc ++ [(p.package_name, [getPair p])]

/-- Python truthiness of an optional string (`None` and `""` are falsy). -/
def pyTruthy : Option String → Bool
  | none => false
  | some s => !(s == "")

/-- Lines 117-124: requirement formatting from the first version/specifier
pair. -/
def formatRequirement (package : String) (vs : Option String × Option String) :
    String :=
  if pyTruthy vs.1 && pyTruthy vs.2 then package ++ vs.2.getD "" ++ vs.1.getD ""
  else if pyTruthy vs.1 then package ++ "==" ++ vs.1.getD ""
  else package

def generate_requirements_txt (packages : List RequiredPackage) : String :=
  let resolved := packages.foldl addPkg []
  let requirements :=
    resolved.map (fun e => formatRequirement e.1 (e.2.headD (none, none)))
  joinWith "\n" requirements

/-! ### The graph compiler (`compile_graph`, lines 129-164) -/

def compile_graph (isortF blackF : String → Except String String)
    (g : DiGraph) (ep : ExecutionPath) : Except String FunctionData :=
  match topoSort g with
  | none => Except.error "Graph is not a Directed Acyclic Graph (DAG)"
  | some order =>
    let function_name := deriveFunctionName ep.name
    let st := runLoop g function_name order
    let python_file := st.python_file ++ "\n" ++ st.graph_script
    let requirements_txt := generate_requirements_txt st.requirements
    match refactor_imports python_file with
    | Except.error e => Except.error e
    | Except.ok refactored =>
      match format_and_sort_code isortF blackF refactored with
      | Except.error e => Except.error e
      | Except.ok code =>
        Except.ok ⟨function_name, code, requirements_txt, ep.endpoint_name⟩

/-- The emission trace of a compile run. -/
def compileTrace (g : DiGraph) (ep : ExecutionPath) : List TraceEntry :=
  match topoSort g with
  | none => []
  | some order => (runLoop g (deriveFunctionName ep.name) order).trace

/-- The assembled (pre-normalization) source unit of a compile run. -/
def assembleOf (g : DiGraph) (ep : ExecutionPath) : String :=
  match topoSort g with
  | none => ""
  | some order =>
    let st := runLoop g (deriveFunctionName ep.name) order
    st.python_file ++ "\n" ++ st.graph_script

def isOkE {α : Type} : Except String α → Bool
  | Except.ok _ => true
  | Except.error _ => false

theorem exists_ok_of_isOkE {α : Type} {e : Except String α} (h : isOkE e = true) :
    ∃ s, e = Except.ok s := by
  cases e with
  | ok s => exact ⟨s, rfl⟩
  | error s => simp [isOkE] at h

/-! ### Claim C3: cycles abort the compile -/

/-- Claim C3: for every graph containing a cycle, `compile_graph` fails with
the NotADAG error ("Graph is not a Directed Acyclic Graph (DAG)") and never
returns a partial `FunctionData`; the check precedes every emission and the
manifest construction, so the same error results for arbitrary formatter
behaviour. -/
theorem compile_graph_cycle_fails (isortF blackF : String → Except String String)
    (g : DiGraph) (ep : ExecutionPath) (h : hasCycle g) :
    compile_graph isortF blackF g ep =
      Except.error "Graph is not a Directed Acyclic Graph (DAG)" := by
  unfold compile_graph
  rw [topoSort_eq_none_of_hasCycle h]

/-- A two-vertex graph with a directed cycle. -/
def gCyc : DiGraph :=
  ⟨[("a", ⟨"a", [], [], "", []⟩), ("b", ⟨"b", [], [], "", []⟩)],
   [("a", "b", 'x'), ("b", "a", 'y')]⟩

/-- Claim C3 witness: the concrete two-cycle aborts the compile with the
NotADAG error even under always-succeeding formatters. -/
theorem compile_graph_cycle_fails_witness :
    compile_graph (fun s => Except.ok s) (fun s => Except.ok s) gCyc ⟨"r", "e"⟩ =
      Except.error "Graph is not a Directed Acyclic Graph (DAG)" :=
  compile_graph_cycle_fails _ _ _ _
    ⟨"a", HasPath.trans _ _ _
      (HasPath.step "a" "b" 'x' (by decide) (by decide) (by decide))
      (HasPath.step "b" "a" 'y' (by decide) (by decide) (by decide))⟩

/-! ### The emission trace of the compile loop -/

theorem processNode_trace_proj (fn : String) (st : CompileState) (n : String)
    (node : Node) :
    (processNode fn st n node).trace.map (fun e => (e.node_name, e.kind)) =
      st.trace.map (fun e => (e.node_name, e.kind)) ++ [(n, kindOfName n)] := by
  unfold processNode kindOfName
  by_cases h1 : strContains n "request" = true
  · simp [h1]
  · by_cases h2 : strContains n "response" = true
    · simp [h1, h2]
    · simp [h1, h2]

theorem foldl_trace_proj (g : DiGraph) (fn : String) :
    ∀ (order : List String) (st : CompileState),
      ((order.foldl (fun st n => processNode fn st n (g.getNode n)) st).trace.map
          (fun e => (e.node_name, e.kind))) =
        st.trace.map (fun e => (e.node_name, e.kind)) ++
          order.map (fun n => (n, kindOfName n)) := by
  intro order
  induction order with
  | nil => intro st; simp
  | cons n rest ih =>
    intro st
    rw [List.foldl_cons, ih, processNode_trace_proj]
    simp

theorem runLoop_trace_proj (g : DiGraph) (fn : String) (order : List String) :
    (runLoop g fn order).trace.map (fun e => (e.node_name, e.kind)) =
      order.map (fun n => (n, kindOfName n)) := by
  have h := foldl_trace_proj g fn order initState
  simpa [runLoop, initState] using h

theorem runLoop_trace_names (g : DiGraph) (fn : String) (order : List String) :
    (runLoop g fn order).trace.map TraceEntry.node_name = order := by
  have h := congrArg (List.map Prod.fst) (runLoop_trace_proj g fn order)
  rw [List.map_map, List.map_map] at h
  have h1 : List.map (Prod.fst ∘ fun e => (e.node_name, e.kind))
      (runLoop g fn order).trace =
      List.map TraceEntry.node_name (runLoop g fn order).trace :=
    List.map_congr_left (fun e _ => rfl)
  have h2 : List.map (Prod.fst ∘ fun n => (n, kindOfName n)) order =
      List.map id order :=
    List.map_congr_left (fun n _ => rfl)
  rw [h1, h2, List.map_id] at h
  exact h

theorem runLoop_trace_kinds (g : DiGraph) (fn : String) (order : List String) :
    ∀ e ∈ (runLoop g fn order).trace, e.kind = kindOfName e.node_name := by
  intro e he
  have h := runLoop_trace_proj g fn order
  have hmem : (e.node_name, e.kind) ∈ order.map (fun n => (n, kindOfName n)) := by
    rw [← h]
    exact List.mem_map.2 ⟨e, he, rfl⟩
  rcases List.mem_map.1 hmem with ⟨n, _, hpair⟩
  have h1 : e.node_name = n := (congrArg Prod.fst hpair).symm
  have h2 : e.kind = kindOfName n := (congrArg Prod.snd hpair).symm
  rw [h2, h1]

theorem kindOfName_start (n : String) :
    (kindOfName n == EmKind.start) = strContains n "request" := by
  unfold kindOfName
  by_cases h1 : strContains n "request" = true
  · simp [h1]
  · by_cases h2 : strContains n "response" = true
    · simp [h1, h2]
    · simp [h1, h2]

theorem kindOfName_stop (n : String) :
    (kindOfName n == EmKind.stop) =
      (!(strContains n "request") && strContains n "response") := by
  unfold kindOfName
  by_cases h1 : strContains n "request" = true
  · simp [h1]
  · by_cases h2 : strContains n "response" = true
    · simp [h1, h2]
    · simp [h1, h2]

/-! ### Claim C1: what a successful compile emits -/

/-- Claim C1: for every valid acyclic graph — duplicate-free vertex names,
exactly one vertex whose name contains "request" (the start), exactly one
whose name contains "response" (the end), no name containing both — whose
assembled source the import refactoring accepts and whose external
formatters succeed, `compile_graph` succeeds, and its emission trace
has exactly one entry per vertex: exactly one start emission (the function
header), exactly one end emission (the return statement), one emission per
remaining (interior) node with the kind always matching the node's role,
in an order consistent with the dependency edges — no consumer's emission
appears before the emission of any of its providers.  (The theorem does not
even need the claim's satisfied-inputs hypothesis: the loop emits once per
node regardless, so the statement proved is stronger than the claim.) -/
theorem compile_graph_emissions (isortF blackF : String → Except String String)
    (g : DiGraph) (ep : ExecutionPath)
    (hnd : g.names.Nodup)
    (hdag : isDAG g = true)
    (hstart : g.names.countP (fun n => strContains n "request") = 1)
    (hend : g.names.countP (fun n => strContains n "response") = 1)
    (hdisj : ∀ n ∈ g.names,
      ¬(strContains n "request" = true ∧ strContains n "response" = true))
    (href : isOkE (refactor_imports (assembleOf g ep)) = true)
    (hisort : ∀ s, ∃ t, isortF s = Except.ok t)
    (hblack : ∀ s, ∃ t, blackF s = Except.ok t) :
    (∃ fd, compile_graph isortF blackF g ep = Except.ok fd) ∧
    (compileTrace g ep).length = g.names.length ∧
    (compileTrace g ep).countP (fun e => e.kind == EmKind.start) = 1 ∧
    (compileTrace g ep).countP (fun e => e.kind == EmKind.stop) = 1 ∧
    (∀ e ∈ compileTrace g ep, e.kind = kindOfName e.node_name) ∧
    (∀ n ∈ g.names, (compileTrace g ep).countP (fun e => e.node_name == n) = 1) ∧
    (∀ u v t, (u, v, t) ∈ g.edges → u ∈ g.names → v ∈ g.names →
      ((compileTrace g ep).map TraceEntry.node_name).indexOf u <
        ((compileTrace g ep).map TraceEntry.node_name).indexOf v) := by
  rw [isDAG] at hdag
  obtain ⟨order, horder⟩ := Option.isSome_iff_exists.1 hdag
  have htr : compileTrace g ep = (runLoop g (deriveFunctionName ep.name) order).trace := by
    simp only [compileTrace, horder]
  have hperm : order.Perm g.names := topoSort_perm horder
  have hond : order.Nodup := hperm.nodup_iff.2 hnd
  have hproj := runLoop_trace_proj g (deriveFunctionName ep.name) order
  have hnames := runLoop_trace_names g (deriveFunctionName ep.name) order
  have hok : ∃ fd, compile_graph isortF blackF g ep = Except.ok fd := by
    rcases exists_ok_of_isOkE href with ⟨s, hs⟩
    simp only [assembleOf, horder] at hs
    rcases hisort s with ⟨t, hst⟩
    rcases hblack t with ⟨u, htu⟩
    refine ⟨⟨deriveFunctionName ep.name, u,
      generate_requirements_txt
        (runLoop g (deriveFunctionName ep.name) order).requirements,
      ep.endpoint_name⟩, ?_⟩
    simp only [compile_graph, horder, hs, format_and_sort_code, hst, htu]
  have hlen : (runLoop g (deriveFunctionName ep.name) order).trace.length =
      g.names.length := by
    have h1 := congrArg List.length hnames
    rw [List.length_map] at h1
    rw [h1, hperm.length_eq]
  have hcs : (runLoop g (deriveFunctionName ep.name) order).trace.countP
      (fun e => e.kind == EmKind.start) = 1 := by
    have e1 : (runLoop g (deriveFunctionName ep.name) order).trace.countP
        (fun e => e.kind == EmKind.start) =
        ((runLoop g (deriveFunctionName ep.name) order).trace.map
          (fun e => (e.node_name, e.kind))).countP (fun pr => pr.2 == EmKind.start) := by
      rw [List.countP_map]; rfl
    rw [e1, hproj, List.countP_map]
    have e2 : ((fun pr : String × EmKind => pr.2 == EmKind.start) ∘
        fun n => (n, kindOfName n)) = fun n => strContains n "request" :=
      funext (fun n => kindOfName_start n)
    rw [e2, hperm.countP_eq]
    exact hstart
  have hce : (runLoop g (deriveFunctionName ep.name) order).trace.countP
      (fun e => e.kind == EmKind.stop) = 1 := by
    have e1 : (runLoop g (deriveFunctionName ep.name) order).trace.countP
        (fun e => e.kind == EmKind.stop) =
        ((runLoop g (deriveFunctionName ep.name) order).trace.map
          (fun e => (e.node_name, e.kind))).countP (fun pr => pr.2 == EmKind.stop) := by
      rw [List.countP_map]; rfl
    rw [e1, hproj, List.countP_map]
    have e2 : ((fun pr : String × EmKind => pr.2 == EmKind.stop) ∘
        fun n => (n, kindOfName n)) =
        fun n => !(strContains n "request") && strContains n "response" :=
      funext (fun n => kindOfName_stop n)
    rw [e2, hperm.countP_eq]
    have hpoint : ∀ x ∈ g.names,
        ((!(strContains x "request") && strContains x "response") = true) ↔
          (strContains x "response" = true) := by
      intro x hx
      constructor
      · intro hc
        simp only [Bool.and_eq_true] at hc
        exact hc.2
      · intro hr
        cases hb : strContains x "request" with
        | false => simp [hr]
        | true => exact absurd ⟨hb, hr⟩ (hdisj x hx)
    rw [List.countP_congr hpoint]
    exact hend
  have hkinds := runLoop_trace_kinds g (deriveFunctionName ep.name) order
  have hpn : ∀ n ∈ g.names, (runLoop g (deriveFunctionName ep.name) order).trace.countP
      (fun e => e.node_name == n) = 1 := by
    intro n hn
    have e1 : (runLoop g (deriveFunctionName ep.name) order).trace.countP
        (fun e => e.node_name == n) =
        ((runLoop g (deriveFunctionName ep.name) order).trace.map
          TraceEntry.node_name).countP (fun x => x == n) := by
      rw [List.countP_map]; rfl
    rw [e1, hnames]
    have hmem : n ∈ order := hperm.mem_iff.2 hn
    have hc := List.count_eq_one_of_mem hond hmem
    simpa [List.count] using hc
  have hresp : ∀ u v t, (u, v, t) ∈ g.edges → u ∈ g.names → v ∈ g.names →
      ((runLoop g (deriveFunctionName ep.name) order).trace.map
        TraceEntry.node_name).indexOf u <
      ((runLoop g (deriveFunctionName ep.name) order).trace.map
        TraceEntry.node_name).indexOf v := by
    intro u v t he hu hv
    rw [hnames]
    exact topoSort_respects horder u v t he hu hv
  rw [htr]
  exact ⟨hok, hlen, hcs, hce, hkinds, hpn, hresp⟩

/-- A concrete well-shaped three-node route graph: start produces `x: int`,
one interior node consumes it and produces `y: int`, the end consumes
`y: int`. -/
def gEx : DiGraph :=
  ⟨[("user_request", ⟨"user_request", [], [⟨"x", "int", "the x"⟩], "", []⟩),
    ("compute", ⟨"compute", [⟨"x", "int", "the x"⟩], [⟨"y", "int", "the y"⟩],
       "def compute(x: int):\n    return x + 1", [⟨"numpy", some "1.0", some "=="⟩]⟩),
    ("user_response", ⟨"user_response", [⟨"y", "int", "the y"⟩], [], "", []⟩)],
   [("user_request", "compute", 'x'), ("compute", "user_response", 'y')]⟩

def epEx : ExecutionPath := ⟨"My Route", "my_route"⟩

/-- Claim C1 witness: the concrete three-node graph compiles under
always-succeeding formatters with the promised emission pattern. -/
theorem compile_graph_emissions_witness :
    (∃ fd, compile_graph (fun s => Except.ok s) (fun s => Except.ok s) gEx epEx =
      Except.ok fd) ∧
    (compileTrace gEx epEx).length = gEx.names.length ∧
    (compileTrace gEx epEx).countP (fun e => e.kind == EmKind.start) = 1 ∧
    (compileTrace gEx epEx).countP (fun e => e.kind == EmKind.stop) = 1 ∧
    (∀ e ∈ compileTrace gEx epEx, e.kind = kindOfName e.node_name) ∧
    (∀ n ∈ gEx.names, (compileTrace gEx epEx).countP (fun e => e.node_name == n) = 1) ∧
    (∀ u v t, (u, v, t) ∈ gEx.edges → u ∈ gEx.names → v ∈ gEx.names →
      ((compileTrace gEx epEx).map TraceEntry.node_name).indexOf u <
        ((compileTrace gEx epEx).map TraceEntry.node_name).indexOf v) :=
  compile_graph_emissions (fun s => Except.ok s) (fun s => Except.ok s) gEx epEx
    (by decide) (by decide) (by decide) (by decide) (by decide) (by decide)
    (fun s => ⟨s, rfl⟩) (fun s => ⟨s, rfl⟩)

/-! ### Claim C8: the synthesized function name -/

theorem processNode_trace_eq (fn : String) (st : CompileState) (n : String)
    (node : Node) :
    (processNode fn st n node).trace = st.trace ++
      [if strContains n "request" then
         ⟨n, EmKind.start, Node.request_to_code { node with name := fn }⟩
       else if strContains n "response" then
         ⟨n, EmKind.stop, Node.response_to_code node st.output_name_map⟩
       else ⟨n, EmKind.call, (Node.to_code node st.output_name_map).1 ++ "\n"⟩] := by
  unfold processNode
  by_cases h1 : strContains n "request" = true
  · simp [h1]
  · by_cases h2 : strContains n "response" = true <;> simp [h1, h2]

/-- All start-kind entries of a trace carry the emitted header of their node
with the derived function name substituted for the node's own name. -/
def StartEmissionsOk (g : DiGraph) (fn : String) (tr : List TraceEntry) : Prop :=
  ∀ e ∈ tr, e.kind = EmKind.start →
    e.emitted = Node.request_to_code { g.getNode e.node_name with name := fn }

theorem processNode_start_ok (g : DiGraph) (fn : String) (st : CompileState)
    (n : String) (h : StartEmissionsOk g fn st.trace) :
    StartEmissionsOk g fn (processNode fn st n (g.getNode n)).trace := by
  intro e he hk
  rw [processNode_trace_eq] at he
  rcases List.mem_append.1 he with he | he
  · exact h e he hk
  · have he' := List.mem_singleton.1 he
    by_cases h1 : strContains n "request" = true
    · rw [if_pos h1] at he'
      subst he'
      rfl
    · rw [if_neg h1] at he'
      by_cases h2 : strContains n "response" = true
      · rw [if_pos h2] at he'
        subst he'
        cases hk
      · rw [if_neg h2] at he'
        subst he'
        cases hk

theorem foldl_start_ok (g : DiGraph) (fn : String) :
    ∀ (order : List String) (st : CompileState),
      StartEmissionsOk g fn st.trace →
      StartEmissionsOk g fn
        ((order.foldl (fun st n => processNode fn st n (g.getNode n)) st).trace) := by
  intro order
  induction order with
  | nil => intro st h; exact h
  | cons n rest ih =>
    intro st h
    exact ih _ (processNode_start_ok g fn st n h)

theorem compileTrace_start_emissions (g : DiGraph) (ep : ExecutionPath) :
    ∀ e ∈ compileTrace g ep, e.kind = EmKind.start →
      e.emitted = Node.request_to_code
        { g.getNode e.node_name with name := deriveFunctionName ep.name } := by
  cases horder : topoSort g with
  | none => simp [compileTrace, horder]
  | some order =>
    simp only [compileTrace, horder]
    refine foldl_start_ok g _ order initState ?_
    intro e he hk
    simp [initState] at he

/-- Every successful compile carries the derived function name. -/
theorem compile_graph_ok_shape (isortF blackF : String → Except String String)
    (g : DiGraph) (ep : ExecutionPath) (fd : FunctionData)
    (h : compile_graph isortF blackF g ep = Except.ok fd) :
    fd.function_name = deriveFunctionName ep.name := by
  unfold compile_graph at h
  cases horder : topoSort g with
  | none => rw [horder] at h; cases h
  | some order =>
    rw [horder] at h
    dsimp only at h
    split at h
    · cases h
    · split at h
      · cases h
      · injection h with h2
        subst h2
        rfl

/-- The route-name normalization exactly as claim C8 words it: every space
and hyphen replaced by an underscore, slashes removed, and lowercased — with
no whitespace stripping step. -/
def claimNormalize (route_name : String) : String :=
  pyLower (pyDeleteChar (pyReplaceChar (pyReplaceChar route_name ' ' '_') '-' '_') '/')

/-- Claim C8 counterexample: for the route name "\tmy route" (leading tab)
the source also applies Python `.strip()`, so the compiled function name is
"my_route_request", whereas the claim's normalization (spaces and hyphens to
underscores, slashes removed, lowercased — no strip) predicts
"\tmy_route_request"; the two differ, refuting the claimed equation. -/
theorem function_name_claim_counterexample :
    (compile_graph (fun s => Except.ok s) (fun s => Except.ok s) gEx
        ⟨"\tmy route", "e"⟩).map FunctionData.function_name =
      Except.ok "my_route_request" ∧
    claimNormalize "\tmy route" ++ "_request" = "\tmy_route_request" ∧
    ("my_route_request" : String) ≠ "\tmy_route_request" := by
  refine ⟨by decide, by decide, by decide⟩

/-- Claim C8 amended: for every successful compile, the returned
`function_name` equals the route name with every space and hyphen replaced
by an underscore, slashes removed, surrounding whitespace stripped, then
lowercased, with "_request" appended; and this derived name is the one
substituted into every start node's emitted signature. -/
theorem compile_graph_function_name (isortF blackF : String → Except String String)
    (g : DiGraph) (ep : ExecutionPath) (fd : FunctionData)
    (h : compile_graph isortF blackF g ep = Except.ok fd) :
    fd.function_name =
      pyLower (pyStrip (pyDeleteChar
        (pyReplaceChar (pyReplaceChar ep.name ' ' '_') '-' '_') '/')) ++ "_request" ∧
    ∀ e ∈ compileTrace g ep, e.kind = EmKind.start →
      e.emitted = Node.request_to_code
        { g.getNode e.node_name with name := fd.function_name } := by
  have hshape := compile_graph_ok_shape isortF blackF g ep fd h
  constructor
  · rw [hshape]
    rfl
  · rw [hshape]
    exact compileTrace_start_emissions g ep

/-- Claim C8 amended witness: the concrete graph compiles and its function
name is the stripped-and-normalized route name with "_request" appended. -/
theorem compile_graph_function_name_witness :
    ∃ fd, compile_graph (fun s => Except.ok s) (fun s => Except.ok s) gEx epEx =
        Except.ok fd ∧
      fd.function_name =
        pyLower (pyStrip (pyDeleteChar
          (pyReplaceChar (pyReplaceChar epEx.name ' ' '_') '-' '_') '/')) ++ "_request" := by
  obtain ⟨fd, hfd⟩ := exists_ok_of_isOkE
    (by decide : isOkE (compile_graph (fun s => Except.ok s) (fun s => Except.ok s)
      gEx epEx) = true)
  exact ⟨fd, hfd, (compile_graph_function_name _ _ gEx epEx fd hfd).1⟩

/-! ### Claim C6: formatter failures are fatal -/

/-- Claim C6 counterexample: with a style normalizer that rejects its input
(as `black.format_str` does on unparsable source), `compile_graph` on a
well-formed graph returns that error: it does not log a warning and return
the unnormalized assembled code — there is no catch anywhere in `dag.py`. -/
theorem unparsable_source_counterexample :
    compile_graph (fun s => Except.ok s) (fun _ => Except.error "black.InvalidInput")
      gEx epEx = Except.error "black.InvalidInput" := by
  decide

/-- Claim C6 amended: when style normalization cannot parse the assembled
source, the failure is fatal rather than tolerated: `compile_graph`
propagates exactly the formatter's error and returns no FunctionData. -/
theorem compile_graph_formatter_error (isortF blackF : String → Except String String)
    (g : DiGraph) (ep : ExecutionPath) (order : List String) (s err : String)
    (horder : topoSort g = some order)
    (href : refactor_imports (assembleOf g ep) = Except.ok s)
    (hfmt : format_and_sort_code isortF blackF s = Except.error err) :
    compile_graph isortF blackF g ep = Except.error err := by
  simp only [assembleOf, horder] at href
  simp only [compile_graph, horder, href, hfmt]

/-- Claim C6 amended witness: a concrete run whose `black` stand-in fails;
the compile returns exactly that error. -/
theorem compile_graph_formatter_error_witness :
    compile_graph (fun s => Except.ok s) (fun _ => Except.error "black parse failure")
      gEx epEx = Except.error "black parse failure" := by
  obtain ⟨s, hs⟩ := exists_ok_of_isOkE
    (by decide : isOkE (refactor_imports (assembleOf gEx epEx)) = true)
  exact compile_graph_formatter_error _ _ gEx epEx
    ["user_request", "compute", "user_response"] s "black parse failure"
    (by decide) hs rfl

/-! ### Claim C7: the requirements manifest deduplicates, first seen wins -/

/-- First-seen order of the distinct elements of a list (the key order of a
Python dict filled by iteration). -/
def firstSeen : List String → List String
  | [] => []
  | x :: xs => x :: (firstSeen xs).filter (fun y => !(y == x))

theorem mem_firstSeen (y : String) : ∀ xs : List String, y ∈ firstSeen xs ↔ y ∈ xs := by
  intro xs
  induction xs with
  | nil => simp [firstSeen]
  | cons x xs ih =>
    rw [firstSeen]
    constructor
    · intro h
      rcases List.mem_cons.1 h with h | h
      · exact h ▸ List.mem_cons_self _ _
      · exact List.mem_cons_of_mem _ (ih.1 (List.mem_filter.1 h).1)
    · intro h
      rcases List.mem_cons.1 h with h | h
      · exact h ▸ List.mem_cons_self _ _
      · by_cases hyx : y = x
        · exact hyx ▸ List.mem_cons_self _ _
        · exact List.mem_cons_of_mem _ (List.mem_filter.2 ⟨ih.2 h, by simp [hyx]⟩)

theorem nodup_firstSeen : ∀ xs : List String, (firstSeen xs).Nodup := by
  intro xs
  induction xs with
  | nil => simp [firstSeen]
  | cons x xs ih =>
    rw [firstSeen]
    refine List.Nodup.cons ?_ (ih.filter _)
    intro hc
    have := (List.mem_filter.1 hc).2
    simp at this

theorem firstSeen_append_singleton (xs : List String) (x : String) :
    firstSeen (xs ++ [x]) =
      if x ∈ xs then firstSeen xs else firstSeen xs ++ [x] := by
  induction xs with
  | nil => simp [firstSeen]
  | cons y ys ih =>
    rw [List.cons_append, firstSeen, ih, firstSeen]
    by_cases hxy : x = y
    · subst hxy
      by_cases hxs : x ∈ ys
      · simp [hxs]
      · simp [hxs, List.filter_append]
    · by_cases hxs : x ∈ ys
      · simp [hxs, hxy]
      · simp [hxs, hxy, List.filter_append, Ne.symm hxy]

theorem head?_filter_eq_find? (q : RequiredPackage → Bool) :
    ∀ ps : List RequiredPackage, (ps.filter q).head? = ps.find? q := by
  intro ps
  induction ps with
  | nil => rfl
  | cons p ps ih =>
    by_cases hq : q p = true
    · rw [List.filter_cons_of_pos hq, List.find?_cons_of_pos _ hq]
      rfl
    · rw [List.filter_cons_of_neg hq, List.find?_cons_of_neg _ hq]
      exact ih

/-- The grouped form of the aggregation dict: keys in first-seen order, each
carrying all its (version, specifier) pairs in input order. -/
def canonGroups (ps : List RequiredPackage) :
    List (String × List (Option String × Option String)) :=
  (firstSeen (ps.map (fun p => p.package_name))).map
    (fun n => (n, (ps.filter (fun p => p.package_name == n)).map getPair))

theorem canonGroups_append (ps : List RequiredPackage) (p : RequiredPackage) :
    canonGroups (ps ++ [p]) = addPkg (canonGroups ps) p := by
  have hnames : (ps ++ [p]).map (fun q => q.package_name) =
      ps.map (fun q => q.package_name) ++ [p.package_name] := by simp
  by_cases hA : p.package_name ∈ ps.map (fun q => q.package_name)
  · have hany : (canonGroups ps).any (fun e => e.1 == p.package_name) = true := by
      rw [List.any_eq_true]
      exact ⟨(p.package_name,
        (ps.filter (fun q => q.package_name == p.package_name)).map getPair),
        List.mem_map.2 ⟨p.package_name, (mem_firstSeen _ _).2 hA, rfl⟩, by simp⟩
    rw [addPkg, if_pos hany, canonGroups, hnames, firstSeen_append_singleton,
      if_pos hA, canonGroups, List.map_map]
    refine List.map_congr_left ?_
    intro n hn
    dsimp only [Function.comp]
    by_cases hpn : n = p.package_name
    · subst hpn
      simp [List.filter_append, List.filter_cons]
    · simp [List.filter_append, List.filter_cons, hpn, Ne.symm hpn]
  · have hany : (canonGroups ps).any (fun e => e.1 == p.package_name) = false := by
      by_contra hc
      rcases List.any_eq_true.1 (Bool.of_not_eq_false hc) with ⟨e, he, hbeq⟩
      rcases List.mem_map.1 he with ⟨n, hn, rfl⟩
      have hn' : n = p.package_name := by simpa using hbeq
      subst hn'
      exact hA ((mem_firstSeen _ _).1 hn)
    rw [addPkg, if_neg (by simp [hany]), canonGroups, hnames,
      firstSeen_append_singleton, if_neg hA, List.map_append]
    congr 1
    · rw [canonGroups]
      refine List.map_congr_left ?_
      intro n hn
      have hnpn : p.package_name ≠ n := by
        intro h
        exact hA (h ▸ (mem_firstSeen _ _).1 hn)
      simp [List.filter_append, List.filter_cons, hnpn]
    · have hfil : ps.filter (fun q => q.package_name == p.package_name) = [] := by
        rw [List.filter_eq_nil_iff]
        intro q hq hbeq
        exact hA (List.mem_map.2 ⟨q, hq, by simpa using hbeq⟩)
      simp [List.filter_append, List.filter_cons, hfil]

theorem foldl_addPkg_eq_canonGroups :
    ∀ ps : List RequiredPackage, ps.foldl addPkg [] = canonGroups ps := by
  intro ps
  induction ps using List.reverseRecOn with
  | nil => rfl
  | append_singleton ps p ih =>
    rw [List.foldl_append, List.foldl_cons, List.foldl_nil, ih, canonGroups_append]

/-- The first (version, specifier) pair recorded for a package name. -/
def firstPair (ps : List RequiredPackage) (name : String) :
    Option String × Option String :=
  match ps.find? (fun p => p.package_name == name) with
  | some p => getPair p
  | none => (none, none)

/-- The requirements manifest as claim C7 words it: one line per distinct
package name, in first-seen order, formatted from the first-seen
(version, specifier) pair of that name. -/
def requirementsSpec (ps : List RequiredPackage) : String :=
  joinWith "\n" ((firstSeen (ps.map (fun p => p.package_name))).map
    (fun n => formatRequirement n (firstPair ps n)))

theorem generate_requirements_txt_eq_spec (ps : List RequiredPackage) :
    generate_requirements_txt ps = requirementsSpec ps := by
  simp only [generate_requirements_txt, requirementsSpec]
  rw [foldl_addPkg_eq_canonGroups, canonGroups, List.map_map]
  congr 1
  refine List.map_congr_left ?_
  intro n hn
  dsimp only [Function.comp]
  congr 1
  rw [firstPair]
  cases hf : ps.find? (fun p => p.package_name == n) with
  | none =>
    have hfil : ps.filter (fun p => p.package_name == n) = [] := by
      rw [List.filter_eq_nil_iff]
      intro a ha hbeq
      exact absurd hbeq (by simpa using List.find?_eq_none.1 hf a ha)
    rw [hfil]
    rfl
  | some q =>
    have h1 : (ps.filter (fun p => p.package_name == n)).head? = some q := by
      rw [head?_filter_eq_find?, hf]
    cases hfl : ps.filter (fun p => p.package_name == n) with
    | nil => rw [hfl] at h1; cases h1
    | cons a rest =>
      rw [hfl] at h1
      have ha : a = q := by
        injection h1
      subst ha
      rfl

/-- Claim C7: requirement-manifest generation deduplicates by package name
with first-seen wins — for every input list the output has exactly one line
per distinct package name (the key list is duplicate-free), each formatted
from the first-seen (version, specifier) pair of that name; in particular
[("requests","2.0","=="), ("requests","2.1","==")] yields the single line
"requests==2.0". -/
theorem generate_requirements_txt_dedups (ps : List RequiredPackage) :
    generate_requirements_txt ps = requirementsSpec ps ∧
    (firstSeen (ps.map (fun p => p.package_name))).Nodup ∧
    generate_requirements_txt
      [⟨"requests", some "2.0", some "=="⟩, ⟨"requests", some "2.1", some "=="⟩] =
      "requests==2.0" :=
  ⟨generate_requirements_txt_eq_spec ps, nodup_firstSeen _, by decide⟩

/-! ### Claim C9: parameter type validation (`Param.check_param_type`) -/

/-- The `basic_types` set of `Param.check_param_type`
(`gen_branching_graph.py` lines 27-39); note the tag is "str". -/
def basic_types : List String :=
  ["bool", "int", "float", "complex", "str", "bytes", "tuple", "list", "dict",
   "set", "frozenset"]

/-- The second element of a split result (`v.split("[")[1]`; total here, but
only read under the prefix guard, which guarantees it exists). -/
def secondOf : List (List Char) → List Char
  | _ :: y :: _ => y
  | _ => []

/-- Python `v.split("[")[1]`. -/
def secondSegment (v : String) : String :=
  String.mk (secondOf (splitOnAuxSeq ['['] v.data.length v.data))

/-- Python `str.rstrip("]")`. -/
def rstripRB (s : String) : String :=
  String.mk ((s.data.reverse.dropWhile (fun c => c == ']')).reverse)

/-- `Param.check_param_type` (lines 25-53) as an acceptance predicate:
`true` means the validator returns the value, `false` that it raises
`ValueError`. -/
def check_param_type (v : String) : Bool :=
  if basic_types.contains v then true
  else if pyStartsWith v "list[" || pyStartsWith v "set[" || pyStartsWith v "tuple[" then
    basic_types.contains (rstripRB (secondSegment v))
  else false

/-- The primitive tag set exactly as claim C9 lists it (with "string"). -/
def claimPrimitives : List String :=
  ["bool", "int", "float", "complex", "string", "bytes", "tuple", "list",
   "dict", "set", "frozenset"]

/-- Acceptance exactly as claim C9 words it: membership in the closed
primitive set, or a single-level container `c[e]` whose container type `c`
is one of the container members of that set and whose element `e` is itself
in the set (e.g. `list[int]`). -/
def claimAccepts (v : String) : Bool :=
  claimPrimitives.contains v ||
  (["tuple", "list", "dict", "set", "frozenset"].any (fun c =>
    claimPrimitives.any (fun e => v == c ++ "[" ++ e ++ "]")))

/-- Claim C9 counterexample: the malformed tag "list[list" is accepted by
`check_param_type` — the code only inspects the text between the first "["
and the next "[", here "list", a basic type — while the claim's closed
primitive set plus single-level containers rejects it, so the claimed
"every other tag is rejected" direction fails on the code.  ("string" and
"dict[int]" separate the two predicates in the opposite direction.) -/
theorem check_param_type_counterexample :
    check_param_type "list[list" = true ∧ claimAccepts "list[list" = false :=
  ⟨by decide, by decide⟩

theorem leadsWith_iff (p : List Char) :
    ∀ s : List Char, leadsWith p s = true ↔ ∃ t, s = p ++ t := by
  induction p with
  | nil => intro s; simp [leadsWith]
  | cons c cs ih =>
    intro s
    cases s with
    | nil => simp [leadsWith]
    | cons x xs =>
      rw [leadsWith]
      simp only [Bool.and_eq_true, beq_iff_eq]
      constructor
      · rintro ⟨rfl, h⟩
        rcases (ih xs).1 h with ⟨t, rfl⟩
        exact ⟨t, rfl⟩
      · rintro ⟨t, ht⟩
        rw [List.cons_append] at ht
        injection ht with h1 h2
        exact ⟨h1.symm, (ih xs).2 ⟨t, h2⟩⟩

theorem splitOnAuxSeq_ne_nil (sep : List Char) (fuel : Nat) (s : List Char) :
    splitOnAuxSeq sep fuel s ≠ [] := by
  cases fuel with
  | zero => cases s <;> simp [splitOnAuxSeq]
  | succ f =>
    cases s with
    | nil => simp [splitOnAuxSeq]
    | cons x xs =>
      rw [splitOnAuxSeq]
      by_cases h : leadsWith sep (x :: xs) = true
      · simp [h]
      · rw [if_neg h]
        cases hq : splitOnAuxSeq sep f xs <;> simp

theorem splitOnAuxSeq_head (fuel : Nat) :
    ∀ s : List Char, s.length ≤ fuel →
      (splitOnAuxSeq ['['] fuel s).head? =
        some (s.takeWhile (fun c => !(c == '['))) := by
  induction fuel with
  | zero =>
    intro s hs
    have hnil : s = [] := List.eq_nil_of_length_eq_zero (Nat.le_zero.1 hs)
    subst hnil
    rfl
  | succ f ih =>
    intro s hs
    cases s with
    | nil => rfl
    | cons x xs =>
      rw [splitOnAuxSeq]
      by_cases hx : x = '['
      · subst hx
        rw [if_pos (by simp [leadsWith])]
        simp [List.takeWhile_cons]
      · have hlw : leadsWith ['['] (x :: xs) = false := by
          simp only [leadsWith, Bool.and_eq_true, beq_iff_eq]
          simp only [Bool.and_true]
          exact beq_eq_false_iff_ne.2 (fun h => hx h.symm)
        rw [if_neg (by simp [hlw])]
        have hrec := ih xs (Nat.le_of_succ_le_succ (by simpa using hs))
        cases hq : splitOnAuxSeq ['['] f xs with
        | nil => exact absurd hq (splitOnAuxSeq_ne_nil _ _ _)
        | cons h t =>
          rw [hq] at hrec
          simp only [List.head?_cons, Option.some.injEq] at hrec
          simp only [List.takeWhile_cons]
          have hxb : (!(x == '[')) = true := by
            simpa using hx
          rw [hxb]
          simp only [if_true, List.head?_cons, Option.some.injEq]
          rw [hrec]

theorem splitOnAuxSeq_second (a : List Char) :
    ∀ (fuel : Nat) (b : List Char), ('[' ∈ a → False) →
      (a ++ '[' :: b).length ≤ fuel →
      secondOf (splitOnAuxSeq ['['] fuel (a ++ '[' :: b)) =
        b.takeWhile (fun c => !(c == '[')) := by
  induction a with
  | nil =>
    intro fuel b _ hlen
    cases fuel with
    | zero => simp at hlen
    | succ f =>
      simp only [List.nil_append]
      rw [splitOnAuxSeq, if_pos (by simp [leadsWith])]
      have hhead := splitOnAuxSeq_head f b (by simpa using hlen)
      cases hq : splitOnAuxSeq ['['] f (List.drop (List.length ['['] - 1) b) with
      | nil => exact absurd hq (splitOnAuxSeq_ne_nil _ _ _)
      | cons h t =>
        have hq' : splitOnAuxSeq ['['] f b = h :: t := by simpa using hq
        rw [hq'] at hhead
        simp only [List.head?_cons, Option.some.injEq] at hhead
        simp only [hq, secondOf]
        exact hhead
  | cons x a' ih =>
    intro fuel b hnotin hlen
    cases fuel with
    | zero => simp at hlen
    | succ f =>
      have hx : x ≠ '[' := fun h => hnotin (h ▸ List.mem_cons_self _ _)
      rw [List.cons_append, splitOnAuxSeq]
      have hlw : leadsWith ['['] (x :: (a' ++ '[' :: b)) = false := by
        simp only [leadsWith, Bool.and_true]
        exact beq_eq_false_iff_ne.2 (fun h => hx h.symm)
      rw [if_neg (by simp [hlw])]
      have hrec := ih f b (fun hm => hnotin (List.mem_cons_of_mem _ hm))
        (Nat.le_of_succ_le_succ (by simpa using hlen))
      cases hq : splitOnAuxSeq ['['] f (a' ++ '[' :: b) with
      | nil => exact absurd hq (splitOnAuxSeq_ne_nil _ _ _)
      | cons h t =>
        rw [hq] at hrec
        simp only [hq]
        cases t with
        | nil => simpa [secondOf] using hrec
        | cons y t' => simpa [secondOf] using hrec

theorem string_eq_of_data {a b : String} (h : a.data = b.data) : a = b :=
  congrArg String.mk h

/-- Under the container-prefix decomposition, `v.split("[")[1]` is the part
of the remainder before the next "[". -/
theorem secondSegment_of_decomp (v c : String) (t : List Char)
    (hc : '[' ∈ c.data → False)
    (ht : v.data = c.data ++ '[' :: t) :
    secondSegment v = String.mk (t.takeWhile (fun ch => !(ch == '['))) := by
  unfold secondSegment
  rw [ht, splitOnAuxSeq_second c.data _ t hc (Nat.le_refl _)]

/-- Claim C9 amended: `check_param_type` accepts `v` iff `v` is one of
{bool, int, float, complex, str, bytes, tuple, list, dict, set, frozenset},
or `v = c ++ "[" ++ rest` with `c` one of {list, set, tuple} and the part of
`rest` before the next "[", stripped of trailing "]" characters, in that
primitive set — e.g. `list[int]`, but also nested or malformed tags such as
`list[list[int]]` or `list[list`; every other tag (including `string`,
`dict[int]` and `frozenset[int]`) is rejected at construction. -/
theorem check_param_type_amended (v : String) :
    check_param_type v = true ↔
      (v ∈ basic_types ∨
        ∃ c rest, (c = "list" ∨ c = "set" ∨ c = "tuple") ∧
          v = c ++ "[" ++ rest ∧
          rstripRB (String.mk (rest.data.takeWhile (fun ch => !(ch == '[')))) ∈
            basic_types) := by
  unfold check_param_type
  by_cases hb : basic_types.contains v = true
  · rw [if_pos hb]
    simp only [true_iff]
    exact Or.inl ((contains_iff_mem _ _).1 hb)
  · rw [if_neg hb]
    by_cases hpre : (pyStartsWith v "list[" ||
        pyStartsWith v "set[" || pyStartsWith v "tuple[") = true
    · rw [if_pos hpre]
      constructor
      · intro hcont
        right
        simp only [Bool.or_eq_true] at hpre
        have hbuild : ∀ c : String, ('[' ∈ c.data → False) →
            pyStartsWith v (c ++ "[") = true →
            ∃ rest, v = c ++ "[" ++ rest ∧
              rstripRB (String.mk (rest.data.takeWhile (fun ch => !(ch == '[')))) ∈
                basic_types := by
          intro c hcbr hstart
          obtain ⟨t, ht⟩ := (leadsWith_iff _ _).1 hstart
          have ht' : v.data = c.data ++ '[' :: t := by
            rw [ht, String.data_append, List.append_assoc]
            rfl
          refine ⟨String.mk t, ?_, ?_⟩
          · refine string_eq_of_data ?_
            rw [String.data_append, String.data_append, List.append_assoc]
            exact ht'
          · have hsec := secondSegment_of_decomp v c t hcbr ht'
            rw [hsec] at hcont
            exact (contains_iff_mem _ _).1 hcont
        rcases hpre with (h1 | h2) | h3
        · obtain ⟨rest, hveq, hm⟩ := hbuild "list" (by decide) h1
          exact ⟨"list", rest, Or.inl rfl, hveq, hm⟩
        · obtain ⟨rest, hveq, hm⟩ := hbuild "set" (by decide) h2
          exact ⟨"set", rest, Or.inr (Or.inl rfl), hveq, hm⟩
        · obtain ⟨rest, hveq, hm⟩ := hbuild "tuple" (by decide) h3
          exact ⟨"tuple", rest, Or.inr (Or.inr rfl), hveq, hm⟩
      · rintro (hmem | ⟨c, rest, hc, hveq, hmem2⟩)
        · exact absurd ((contains_iff_mem _ _).2 hmem) hb
        · have hcbr : '[' ∈ c.data → False := by
            rcases hc with rfl | rfl | rfl <;> decide
          have hdata : v.data = c.data ++ '[' :: rest.data := by
            rw [hveq, String.data_append, String.data_append, List.append_assoc]
            rfl
          have hsec := secondSegment_of_decomp v c rest.data hcbr hdata
          rw [hsec]
          exact (contains_iff_mem _ _).2 hmem2
    · rw [if_neg hpre]
      simp only [Bool.false_eq_true, false_iff]
      rintro (hmem | ⟨c, rest, hc, hveq, hmem2⟩)
      · exact hb ((contains_iff_mem _ _).2 hmem)
      · apply hpre
        have hstart : pyStartsWith v (c ++ "[") = true := by
          unfold pyStartsWith
          rw [leadsWith_iff]
          refine ⟨rest.data, ?_⟩
          rw [hveq, String.data_append]
        rcases hc with rfl | rfl | rfl <;> simp only [Bool.or_eq_true]
        · exact Or.inl (Or.inl hstart)
        · exact Or.inl (Or.inr hstart)
        · exact Or.inr hstart

/-! ### Claim C4: the recursion depth ceiling (`codex/develop/agent.py`) -/

/-- Modelled from the spec: the `Function` records of the decomposition side
(prisma models and `codex/develop/model.py`) are not under src/; `agent.py`
reads `functionName`, `template`, `id` and the declared child functions. -/
structure FuncDef where
  id : String
  functionName : String
  template : String
deriving DecidableEq

instance : Inhabited FuncDef := ⟨⟨"", "", ""⟩⟩

/-- Modelled from the spec: `DevelopAIBlock().invoke` is the external
generation oracle; it materializes the requested function and declares the
children it calls (`route_function.ChildFunction`).  Per spec section 4.4
every invocation also registers the materialized function in the shared
per-route registry. -/
structure OracleResult where
  fn : FuncDef
  children : List FuncDef
deriving DecidableEq

/-- The default recursion ceiling `RECURSION_DEPTH_LIMIT` (`agent.py` line
10; the environment override defaults to 3 and the claim is about that
default). -/
def RECURSION_DEPTH_LIMIT : Nat := 3

mutual

/-- `recursive_create_function` of `agent.py` (lines 51-106), with the
ceiling and the oracle as parameters and the module-level registry threaded
explicitly; a failure result carries the registry state at the raise point
(the Python exception leaves the module-level registry as it was). -/
def recursive_create_function (limit : Nat) (oracle : FuncDef → OracleResult)
    (function_def : FuncDef) (registry : List FuncDef) (depth : Nat) :
    Option String × List FuncDef :=
  if h : depth > limit then (some "Recursion depth exceeded", registry)
  else
    let r := oracle function_def
    rcf_children limit oracle r.children (registry ++ [r.fn]) (depth + 1)
termination_by (limit + 1 - depth, 0)
decreasing_by
  simp_wf
  apply Prod.Lex.left
  omega

/-- The `for child in route_function.ChildFunction` loop (lines 98-104); a
raised exception aborts the remaining iterations and propagates. -/
def rcf_children (limit : Nat) (oracle : FuncDef → OracleResult)
    (children : List FuncDef) (registry : List FuncDef) (depth : Nat) :
    Option String × List FuncDef :=
  match children with
  | [] => (none, registry)
  | c :: cs =>
    match recursive_create_function limit oracle c registry depth with
    | (some e, reg) => (some e, reg)
    | (none, reg) => rcf_children limit oracle cs reg depth
termination_by (limit + 1 - depth, children.length + 1)
decreasing_by
  · simp_wf
    apply Prod.Lex.right
    omega
  · simp_wf
    apply Prod.Lex.right
    omega

end

/-- `develop_route` (lines 18-48): resets the registry, invokes the oracle
for the top-level route function, then recursively creates each declared
child starting at the default depth 0. -/
def develop_route (limit : Nat) (oracle : FuncDef → OracleResult)
    (func : FuncDef) : Option String × List FuncDef :=
  let r := oracle func
  rcf_children limit oracle r.children [r.fn] 0

/-- The function definition handed to the depth-`n` nested call when every
oracle answer declares exactly one child. -/
def childChain (oracle : FuncDef → OracleResult) (f : FuncDef) : Nat → FuncDef
  | 0 => f
  | n + 1 => ((oracle (childChain oracle f n)).children).headD default

/-- Claim C4: with the ceiling at its default of 3,
`recursive_create_function` fails with "Recursion depth exceeded" whenever
`depth` exceeds the ceiling (first conjunct, any ceiling); and against an
oracle that always declares exactly one child, the chain started at depth 0
fails at the 4th nested call (the depth-4 call) with exactly the four
functions materialized at depths 0-3 registered — the failing branch's
function is never materialized, so nothing of it is registered (second
conjunct). -/
theorem recursion_depth_guard :
    (∀ (limit : Nat) (oracle : FuncDef → OracleResult) (f : FuncDef)
        (reg : List FuncDef) (depth : Nat), depth > limit →
        recursive_create_function limit oracle f reg depth =
          (some "Recursion depth exceeded", reg)) ∧
    (∀ oracle : FuncDef → OracleResult,
        (∀ f, (oracle f).children.length = 1) →
        ∀ f : FuncDef,
          recursive_create_function RECURSION_DEPTH_LIMIT oracle f [] 0 =
            (some "Recursion depth exceeded",
             [(oracle (childChain oracle f 0)).fn,
              (oracle (childChain oracle f 1)).fn,
              (oracle (childChain oracle f 2)).fn,
              (oracle (childChain oracle f 3)).fn])) := by
  constructor
  · intro limit oracle f reg depth h
    rw [recursive_create_function, dif_pos h]
  · intro oracle hone f
    obtain ⟨c1, h1⟩ := List.length_eq_one.1 (hone f)
    obtain ⟨c2, h2⟩ := List.length_eq_one.1 (hone c1)
    obtain ⟨c3, h3⟩ := List.length_eq_one.1 (hone c2)
    obtain ⟨c4, h4⟩ := List.length_eq_one.1 (hone c3)
    have hc0 : childChain oracle f 0 = f := rfl
    have hc1 : childChain oracle f 1 = c1 := by
      rw [childChain, hc0, h1]
      rfl
    have hc2 : childChain oracle f 2 = c2 := by
      rw [childChain, hc1, h2]
      rfl
    have hc3 : childChain oracle f 3 = c3 := by
      rw [childChain, hc2, h3]
      rfl
    have g0 : ¬(0 > RECURSION_DEPTH_LIMIT) := by decide
    have g1 : ¬(1 > RECURSION_DEPTH_LIMIT) := by decide
    have g2 : ¬(2 > RECURSION_DEPTH_LIMIT) := by decide
    have g3 : ¬(3 > RECURSION_DEPTH_LIMIT) := by decide
    have g4 : 4 > RECURSION_DEPTH_LIMIT := by decide
    rw [hc0, hc1, hc2, hc3]
    rw [recursive_create_function, dif_neg g0]
    simp only [h1, rcf_children, List.nil_append]
    rw [recursive_create_function, dif_neg g1]
    simp only [h2, rcf_children]
    rw [recursive_create_function, dif_neg g2]
    simp only [h3, rcf_children]
    rw [recursive_create_function, dif_neg g3]
    simp only [h4, rcf_children]
    rw [recursive_create_function, dif_pos g4]
    simp [List.append_assoc]

/-- A concrete always-one-child oracle. -/
def oracleW : FuncDef → OracleResult :=
  fun f => ⟨f, [⟨f.id ++ "c", f.functionName ++ "_child", ""⟩]⟩

/-- Claim C4 witness: against the concrete one-child oracle, the depth-0
call fails with "Recursion depth exceeded" and registers exactly the four
functions of depths 0 to 3. -/
theorem recursion_depth_guard_witness :
    recursive_create_function RECURSION_DEPTH_LIMIT oracleW ⟨"r", "root", ""⟩ [] 0 =
      (some "Recursion depth exceeded",
       [(oracleW (childChain oracleW ⟨"r", "root", ""⟩ 0)).fn,
        (oracleW (childChain oracleW ⟨"r", "root", ""⟩ 1)).fn,
        (oracleW (childChain oracleW ⟨"r", "root", ""⟩ 2)).fn,
        (oracleW (childChain oracleW ⟨"r", "root", ""⟩ 3)).fn]) :=
  recursion_depth_guard.2 oracleW (fun _ => rfl) ⟨"r", "root", ""⟩

end Codex
